import Mathlib

/-!
Verification of the k-bucket implementation in
`src/network/kad/router/kbucket.go` (package `router` of the sleepy DHT
node).

The bucket state is embedded shallowly: the Go slice `[]*kadTypes.Peer`
becomes `List (Option Peer)`, where `none` models a nil pointer (the
constructor `newKBucket` really does fill the slice with 16 nil
pointers).  Go functions that can panic (nil-pointer dereference, slice
bounds out of range) return `GoResult`, whose `panics` constructor marks
those executions.  Errors built with `errors.New` are mapped to the
constructors of `GoError`, one per distinct message string.

`kadTypes.Peer` and `types.UInt128` live outside the provided source
file, so their contracts are modelled from the spec where noted.
-/

namespace KBucketModel

/-- Modelled from the spec: `kadTypes.Peer` (not in src/) carries a
128-bit identifier, a public IP address, a UDP port, a TCP port, an
"IP verified" flag, an "alive" flag and a freshness marker updatable in
place.  The 128-bit identifier and the IP address are modelled as `Nat`
(all claims hold for arbitrary naturals; no arithmetic wraps). -/
structure Peer where
  id : Nat
  ip : Nat
  udpPort : Nat
  tcpPort : Nat
  ipVerified : Bool
  alive : Bool
  freshness : Nat
deriving DecidableEq, Repr

/-- Modelled from the spec: `Peer.Equal` (kadTypes, not in src/) —
"Two peers are equal iff their identifiers are equal." -/
def peerEqual (a b : Peer) : Bool := a.id == b.id

/-- Modelled from the spec: `Peer.UpdateType` (kadTypes, not in src/) —
the peer's in-place freshness-update operation, opaque to this core; it
touches only the freshness marker. -/
def updateType (p : Peer) : Peer := { p with freshness := p.freshness + 1 }

/-- Modelled from the spec: `types.Xor` on `UInt128` (not in src/) —
bitwise exclusive-or of two identifiers, the Kademlia distance. -/
def idXor (a b : Nat) : Nat := Nat.xor a b

/-- The error taxonomy: one constructor per `errors.New` message string
in kbucket.go, named after the spec's error kinds. -/
inductive GoError where
  /-- "kBucket only can storage not null peers" -/
  | invalidArgument
  /-- "kBucket already contains the passed peer" -/
  | duplicatePeer
  /-- "the current kBucket is full" -/
  | bucketFull
  /-- "many peers for the current IP" -/
  | tooManyFromSameAddress
  /-- "kBucket don't contains a peer with the passed id" -/
  | peerNotFound
  /-- "incompatible network type" -/
  | unsupportedAddressKind
  /-- "kBucket don't contains any peer" -/
  | emptyBucket
  /-- the error returned by a failed `crypto/rand.Read` -/
  | randomSourceFailure
deriving DecidableEq, Repr

/-- Outcome of a Go call: a runtime panic (nil dereference or slice
bounds), a returned error, or a normal return. -/
inductive GoResult (α : Type) where
  | panics
  | err (e : GoError)
  | ok (v : α)
deriving DecidableEq, Repr

/-- `maxBucketSize = 16` — max number of peers in each k-bucket. -/
def maxBucketSize : Nat := 16

/-- `maxPeersPerIP = 3` — number of peers permitted from same public IP. -/
def maxPeersPerIP : Nat := 3

/-- The k-bucket: the slice `peers []*kadTypes.Peer`; a `none` entry is a
nil pointer.  The mutex field has no value-level content. -/
structure KBucket where
  peers : List (Option Peer)
deriving DecidableEq, Repr

/-- `newKBucket`: `peers: make([]*kadTypes.Peer, maxBucketSize)` — a
slice of length 16 whose entries are all nil. -/
def newKBucket : KBucket := ⟨List.replicate maxBucketSize none⟩

/-- `CountPeers`: `len(bucket.peers)`. -/
def CountPeers (bucket : KBucket) : Nat := bucket.peers.length

/-- `CountRemainingPeers`: `maxBucketSize - bucket.CountPeers()`
(Go int subtraction; the model never reaches negative values). -/
def CountRemainingPeers (bucket : KBucket) : Nat :=
  maxBucketSize - CountPeers bucket

/-- `IsFull`: `bucket.CountPeers() == maxBucketSize`. -/
def IsFull (bucket : KBucket) : Bool := CountPeers bucket == maxBucketSize

/-- The scan loop of `AddPeer`: walks the slice, returns `DuplicatePeer`
at the first entry equal (by identifier) to the new peer, otherwise
counts the entries sharing the new peer's IP (`sameNetwork`).
Dereferencing a nil entry (`peer.Equal`, `peer.IP()`) panics. -/
def addScan (newPeer : Peer) : List (Option Peer) → Nat → GoResult Nat
  | [], sameNetwork => .ok sameNetwork
  | none :: _, _ => .panics
  | some peer :: rest, sameNetwork =>
    if peerEqual peer newPeer then .err .duplicatePeer
    else addScan newPeer rest (if peer.ip == newPeer.ip then sameNetwork + 1 else sameNetwork)

/-- `AddPeer`: nil check, duplicate / same-IP scan, capacity check
(`len >= maxBucketSize`), per-IP check (`sameNetwork >= maxPeersPerIP`),
then append at the tail. -/
def AddPeer (bucket : KBucket) (newPeer : Option Peer) : GoResult KBucket :=
  match newPeer with
  | none => .err .invalidArgument
  | some np =>
    match addScan np bucket.peers 0 with
    | .panics => .panics
    | .err e => .err e
    | .ok sameNetwork =>
      if maxBucketSize ≤ bucket.peers.length then .err .bucketFull
      else if maxPeersPerIP ≤ sameNetwork then .err .tooManyFromSameAddress
      else .ok ⟨bucket.peers ++ [some np]⟩

/-- Go error paths leave `bucket.peers` untouched: the bucket after an
`AddPeer` call is the returned one on success, the old one otherwise. -/
def runAdd (bucket : KBucket) (newPeer : Option Peer) : KBucket :=
  match AddPeer bucket newPeer with
  | .ok b => b
  | _ => bucket

/-- State after a whole sequence of `AddPeer` calls, oldest first. -/
def runAdds (bucket : KBucket) (inputs : List (Option Peer)) : KBucket :=
  inputs.foldl runAdd bucket

/-- The loop of `RemovePeer`: drops the first entry equal (by
identifier) to the target, keeping the rest in order;
`peertr.Equal(peer)` on a nil entry panics. -/
def removeLoop (target : Peer) : List (Option Peer) → GoResult (List (Option Peer))
  | [] => .err .peerNotFound
  | none :: _ => .panics
  | some peertr :: rest =>
    if peerEqual peertr target then .ok rest
    else
      match removeLoop target rest with
      | .ok l => .ok (some peertr :: l)
      | .err e => .err e
      | .panics => .panics

/-- `RemovePeer`: scan-and-splice; a nil argument dereferenced by
`Equal` panics as soon as the loop body runs. -/
def RemovePeer (bucket : KBucket) (peer : Option Peer) : GoResult KBucket :=
  match peer with
  | none => if bucket.peers.isEmpty then .err .peerNotFound else .panics
  | some target =>
    match removeLoop target bucket.peers with
    | .ok l => .ok ⟨l⟩
    | .err e => .err e
    | .panics => .panics

/-- The loop of `GetPeer`: first entry whose identifier equals the given
id; `peer.Id()` on a nil entry panics. -/
def getPeerLoop (id : Nat) : List (Option Peer) → GoResult Peer
  | [] => .err .peerNotFound
  | none :: _ => .panics
  | some peer :: rest =>
    if peer.id == id then .ok peer else getPeerLoop id rest

/-- `GetPeer`: linear scan by identifier equality. -/
def GetPeer (bucket : KBucket) (id : Nat) : GoResult Peer :=
  getPeerLoop id bucket.peers

/-- `GetRandomPeer`: reads one random byte `b`, then returns
`peers[int(b) % len(peers)]` when the slice is non-empty.  The entropy
read happens first; its failure is propagated before anything else.
`randByte` is the byte read (0..255), `randOk` whether the read
succeeded. -/
def GetRandomPeer (bucket : KBucket) (randByte : Nat) (randOk : Bool) :
    GoResult (Option Peer) :=
  if !randOk then .err .randomSourceFailure
  else if 0 < bucket.peers.length then
    .ok (bucket.peers.getD (randByte % bucket.peers.length) none)
  else .err .emptyBucket

/-- `OldestPeer`: `bucket.peers[0]` when non-empty, nil otherwise.  The
result is a Go pointer, so `none` covers both the empty bucket and a nil
slot at position 0. -/
def OldestPeer (bucket : KBucket) : Option Peer :=
  match bucket.peers with
  | [] => none
  | p :: _ => p

/-- `ContainsPeer`: `peer != nil && err == nil` after `GetPeer`. -/
def ContainsPeer (bucket : KBucket) (id : Nat) : Bool :=
  match GetPeer bucket id with
  | .ok _ => true
  | _ => false

/-- `Peers`: the copied snapshot's contents (the heap-level copy
behaviour is modelled separately below). -/
def Peers (bucket : KBucket) : List (Option Peer) := bucket.peers

/-- Dereference every entry of the snapshot: the filter callback of
`GetClosestPeers` calls `peer.IsIpVerified()`/`peer.IsAlive()` on each
entry, so a nil entry panics. -/
def derefAll : List (Option Peer) → GoResult (List Peer)
  | [] => .ok []
  | none :: _ => .panics
  | some p :: rest =>
    match derefAll rest with
    | .ok l => .ok (p :: l)
    | .err e => .err e
    | .panics => .panics

/-- The filter predicate of `GetClosestPeers`:
`peer.IsIpVerified() && peer.IsAlive()`. -/
def qualifies (peer : Peer) : Bool := peer.ipVerified && peer.alive

/-- The sort order of `GetClosestPeers`: the Go comparator is the strict
`types.Xor(id_i, to).Compare(types.Xor(id_j, to)) < 0`; `sort.Slice`
with that comparator produces some ordering non-decreasing under the
associated total preorder, modelled by `mergeSort` with its non-strict
counterpart. -/
def distLe (target : Nat) (a b : Peer) : Bool :=
  idXor a.id target ≤ idXor b.id target

/-- `GetClosestPeers(to, max)`: on a non-empty slice, filter the
snapshot to verified-and-alive peers, sort ascending by XOR distance to
`to`, and return `peerCpy[0:max]` when `len(peerCpy) > max` (a Go slice
expression that panics for negative `max`), the whole list otherwise;
on an empty slice return the empty list, never an error. -/
def GetClosestPeers (bucket : KBucket) (target : Nat) (max : Int) :
    GoResult (List Peer) :=
  if 0 < bucket.peers.length then
    match derefAll (Peers bucket) with
    | .panics => .panics
    | .err e => .err e
    | .ok l =>
      let peerCpy := (l.filter qualifies).mergeSort (distLe target)
      if (max : Int) < (peerCpy.length : Int) then
        if 0 ≤ max then .ok (peerCpy.take max.toNat) else .panics
      else .ok peerCpy
  else .ok []

/-- `pushToEnd`: locate the first entry equal (by identifier) to the
peer, splice it out (`append(peers[0:pos], peers[pos+1:]...)`) and
re-append the peer at the tail; fails when no entry matches.  The scan
and splice are the same loop as `RemovePeer`. -/
def pushToEnd (bucket : KBucket) (peer : Peer) : GoResult KBucket :=
  match removeLoop peer bucket.peers with
  | .ok l => .ok ⟨l ++ [some peer]⟩
  | .err _ => .err .peerNotFound
  | .panics => .panics

/-- `SetPeerAlive`: `GetPeer`, then the peer's in-place
`UpdateType()`, then `pushToEnd` with that (updated) peer.  The Go
update mutates the stored record through its pointer; in the value
model the updated record replaces the stored one when it is re-appended
at the tail, which yields the same final slice contents. -/
def SetPeerAlive (bucket : KBucket) (id : Nat) : GoResult KBucket :=
  match GetPeer bucket id with
  | .err e => .err e
  | .panics => .panics
  | .ok inPeer => pushToEnd bucket (updateType inPeer)

/-!
Heap-level model for snapshot isolation (`Peers`).  A Go slice's
backing array is identified by a `Nat`; `Heap.arrays` maps each id to
its current contents and `Heap.next` is the next unallocated id.  The
bucket's slice header points at array `bucketArr`.  `Peers` performs
`make` + `copy`, i.e. allocates a fresh array holding the current
contents; `AddPeer`/`RemovePeer` write (at worst in place) the bucket's
own array — Go's `append` either reuses the bucket's backing array or
allocates a fresh one, and the in-place case is the one modelled, being
the only one that could threaten a previously taken snapshot.
-/

/-- The heap of slice backing arrays. -/
structure Heap where
  arrays : Nat → List (Option Peer)
  next : Nat

/-- Overwrite the contents of array `i` in place. -/
def writeArr (h : Heap) (i : Nat) (d : List (Option Peer)) : Heap :=
  ⟨fun j => if j = i then d else h.arrays j, h.next⟩

/-- Allocate a fresh backing array holding `d`; returns its id. -/
def allocArr (h : Heap) (d : List (Option Peer)) : Heap × Nat :=
  (⟨fun j => if j = h.next then d else h.arrays j, h.next + 1⟩, h.next)

/-- `Peers` at heap level: `make([]*kadTypes.Peer, len)` + `copy` — a
fresh backing array with the bucket's current contents. -/
def PeersSnapshot (h : Heap) (bucketArr : Nat) : Heap × Nat :=
  allocArr h (h.arrays bucketArr)

/-- `AddPeer` at heap level: on success the new contents land on the
bucket's array; error paths leave the heap unchanged. -/
def AddPeerHeap (h : Heap) (bucketArr : Nat) (p : Option Peer) : Heap :=
  match AddPeer ⟨h.arrays bucketArr⟩ p with
  | .ok b => writeArr h bucketArr b.peers
  | _ => h

/-- `RemovePeer` at heap level: the splice
`append(peers[0:index], peers[index+1:]...)` shifts elements inside the
bucket's own backing array. -/
def RemovePeerHeap (h : Heap) (bucketArr : Nat) (p : Option Peer) : Heap :=
  match RemovePeer ⟨h.arrays bucketArr⟩ p with
  | .ok b => writeArr h bucketArr b.peers
  | _ => h

/-!
Lock-event model for the mutation discipline.  Each operation of
kbucket.go is abstracted to the sequence of `peersAccess.Lock()` /
`peersAccess.Unlock()` calls and accesses to `bucket.peers` it performs
on a given control path, in program order.
-/

/-- Lock and collection-access events. -/
inductive LockEv where
  | lock
  | unlock
  | access
deriving DecidableEq, Repr

/-- The three cases of `GetPeerByAddr`'s type switch:
`*net.UDPAddr`, `*net.TCPAddr`, or any other address kind. -/
inductive AddrKind where
  | udp
  | tcp
  | other
deriving DecidableEq, Repr

/-- Event trace of `GetPeerByAddr`: `Lock()` precedes the type switch;
the UDP/TCP cases scan the collection and unlock before returning, but
the `default` case returns `UnsupportedAddressKind` immediately — with
the mutex still held. -/
def GetPeerByAddrLockTrace (kind : AddrKind) : List LockEv :=
  match kind with
  | .udp => [.lock, .access, .unlock]
  | .tcp => [.lock, .access, .unlock]
  | .other => [.lock]

/-- Event trace of `Peers`: copies `bucket.peers` without ever touching
the mutex. -/
def PeersLockTrace : List LockEv := [.access]

/-- Event trace of `OldestPeer`: reads `bucket.peers` without locking. -/
def OldestPeerLockTrace : List LockEv := [.access]

/-- Event trace of `CountPeers` (hence `IsFull`,
`CountRemainingPeers`): reads `len(bucket.peers)` without locking. -/
def CountPeersLockTrace : List LockEv := [.access]

/-- The discipline the spec requires of a trace, checked with the
current lock depth: every collection access happens with the lock held,
unlocks match locks, and the lock is fully released at return. -/
def disciplineFrom : List LockEv → Nat → Bool
  | [], depth => depth == 0
  | .lock :: rest, depth => disciplineFrom rest (depth + 1)
  | .unlock :: rest, depth => depth != 0 && disciplineFrom rest (depth - 1)
  | .access :: rest, depth => depth != 0 && disciplineFrom rest depth

/-- A trace obeys the mutation discipline: starts unlocked, accesses
only under the lock, releases before returning. -/
def lockDiscipline (t : List LockEv) : Bool := disciplineFrom t 0

/-- The intended empty bucket of the spec: zero occupants (what
`newKBucket` should have produced — see the claim about construction). -/
def emptyKBucket : KBucket := ⟨[]⟩

/-- The identifiers of the non-nil entries, in order. -/
def idsOf (l : List (Option Peer)) : List Nat :=
  l.filterMap (fun o => o.map Peer.id)

/-- The non-nil entries, in order. -/
def occupantsOf (l : List (Option Peer)) : List Peer :=
  l.filterMap id

/-- Number of non-nil entries whose IP equals `x`. -/
def ipCount (x : Nat) (l : List (Option Peer)) : Nat :=
  l.countP (fun o => match o with | some q => q.ip == x | none => false)

/-- Well-formedness of a bucket state: no nil entries, pairwise
distinct identifiers, within capacity, within the per-IP cap. -/
def GoodBucket (bucket : KBucket) : Prop :=
  none ∉ bucket.peers ∧ (idsOf bucket.peers).Nodup ∧
    bucket.peers.length ≤ maxBucketSize ∧
    ∀ x : Nat, ipCount x bucket.peers ≤ maxPeersPerIP

/-- A concrete peer record for concrete runs: identifier `i`, IP `ipa`,
fixed ports, verified and alive. -/
def mkPeer (i ipa : Nat) : Peer :=
  ⟨i, ipa, 10, 20, true, true, 0⟩

/-- Sixteen adds with pairwise distinct identifiers and IPs. -/
def seq16 : List (Option Peer) :=
  (List.range 16).map (fun i => some (mkPeer i i))

/-- The bucket reached from the intended-empty state by `seq16`. -/
def fullBucket16 : KBucket := runAdds emptyKBucket seq16

/-- Thirteen adds on distinct IPs followed by three adds sharing
IP 100 — a full bucket whose IP-100 population sits at the per-IP cap. -/
def seqIp : List (Option Peer) :=
  (List.range 13).map (fun i => some (mkPeer i i)) ++
    [some (mkPeer 13 100), some (mkPeer 14 100), some (mkPeer 15 100)]

/-- The bucket reached from the intended-empty state by `seqIp`. -/
def fullIpBucket : KBucket := runAdds emptyKBucket seqIp

/-- A three-occupant bucket, the smallest size at which one random
byte modulo the occupant count is biased. -/
def bucket3 : KBucket :=
  ⟨[some (mkPeer 0 0), some (mkPeer 1 1), some (mkPeer 2 2)]⟩

/-- A non-full bucket whose IP-100 population sits at the per-IP cap. -/
def ipCapBucket : KBucket :=
  ⟨[some (mkPeer 5 100), some (mkPeer 6 100), some (mkPeer 7 100)]⟩

/-- A one-array heap whose bucket slice (array 0) holds one peer. -/
def heap1 : Heap :=
  ⟨fun j => if j = 0 then [some (mkPeer 0 0)] else [], 1⟩

theorem mem_occupantsOf {l : List (Option Peer)} {q : Peer} :
    q ∈ occupantsOf l ↔ some q ∈ l := by
  simp [occupantsOf, List.mem_filterMap]

theorem mem_idsOf {l : List (Option Peer)} {x : Nat} :
    x ∈ idsOf l ↔ ∃ q : Peer, some q ∈ l ∧ q.id = x := by
  simp [idsOf, List.mem_filterMap, Option.map_eq_some']
  constructor
  · rintro ⟨a, ha, q, hq, hid⟩
    exact ⟨q, by simpa [hq] using ha, hid⟩
  · rintro ⟨q, hq, hid⟩
    exact ⟨some q, hq, q, rfl, hid⟩

set_option linter.unnecessarySeqFocus false in
/-- The scan loop of `AddPeer` on a nil-free slice either hits a
duplicate identifier and errors, or completes with the accumulated
same-IP count. -/
theorem addScan_result (np : Peer) :
    ∀ (l : List (Option Peer)) (acc : Nat), none ∉ l →
      (addScan np l acc = .err .duplicatePeer ∧
        ∃ q : Peer, some q ∈ l ∧ q.id = np.id) ∨
      (addScan np l acc = .ok (acc + ipCount np.ip l) ∧
        ∀ q : Peer, some q ∈ l → q.id ≠ np.id) := by
  intro l
  induction l with
  | nil =>
    intro acc _
    right
    simp [addScan, ipCount]
  | cons o rest ih =>
    intro acc hnil
    match o with
    | none => exact absurd (List.mem_cons_self none rest) hnil
    | some q =>
      have hrest : none ∉ rest := fun h => hnil (List.mem_cons_of_mem _ h)
      by_cases hq : q.id = np.id
      · left
        refine ⟨by simp [addScan, peerEqual, hq], q, List.mem_cons_self _ _, hq⟩
      · have hstep : addScan np (some q :: rest) acc =
            addScan np rest (if q.ip == np.ip then acc + 1 else acc) := by
          simp [addScan, peerEqual, hq]
        rcases ih (if q.ip == np.ip then acc + 1 else acc) hrest with
          ⟨heq, hdup⟩ | ⟨heq, hnd⟩
        · left
          refine ⟨hstep.trans heq, ?_⟩
          rcases hdup with ⟨r, hr, hrid⟩
          exact ⟨r, List.mem_cons_of_mem _ hr, hrid⟩
        · right
          constructor
          · rw [hstep, heq]
            have hcnt : ipCount np.ip (some q :: rest) =
                ipCount np.ip rest + (if q.ip == np.ip then 1 else 0) := by
              simp [ipCount, List.countP_cons]
            rw [hcnt]
            by_cases hip : q.ip == np.ip <;> simp [hip] <;> omega
          · intro r hr
            rcases List.mem_cons.mp hr with h | h
            · cases Option.some.inj h
              exact hq
            · exact hnd r h

/-- A successful `AddPeer` appended the (non-nil) peer and found the
slice strictly below capacity — independent of nil entries. -/
theorem AddPeer_ok_inversion {bucket b' : KBucket} {p : Option Peer}
    (h : AddPeer bucket p = .ok b') :
    ∃ np : Peer, p = some np ∧ b'.peers = bucket.peers ++ [some np] ∧
      bucket.peers.length < maxBucketSize := by
  match p with
  | none => simp [AddPeer] at h
  | some np =>
    refine ⟨np, rfl, ?_⟩
    rcases hscan : addScan np bucket.peers 0 with _ | e | sameNetwork
    · simp [AddPeer, hscan] at h
    · simp [AddPeer, hscan] at h
    · by_cases hlen : maxBucketSize ≤ bucket.peers.length
      · simp [AddPeer, hscan, hlen] at h
      · by_cases hip : maxPeersPerIP ≤ sameNetwork
        · simp [AddPeer, hscan, hlen, hip] at h
        · simp only [AddPeer, hscan, if_neg hlen, if_neg hip,
            GoResult.ok.injEq] at h
          subst h
          exact ⟨rfl, by omega⟩

/-- On a nil-free slice a successful `AddPeer` also certifies: no
occupant had the incoming identifier, and fewer than `maxPeersPerIP`
occupants shared the incoming IP. -/
theorem AddPeer_ok_inversion_nilFree {bucket b' : KBucket} {np : Peer}
    (hnil : none ∉ bucket.peers) (h : AddPeer bucket (some np) = .ok b') :
    b'.peers = bucket.peers ++ [some np] ∧
      bucket.peers.length < maxBucketSize ∧
      ipCount np.ip bucket.peers < maxPeersPerIP ∧
      ∀ q : Peer, some q ∈ bucket.peers → q.id ≠ np.id := by
  rcases addScan_result np bucket.peers 0 hnil with ⟨heq, _⟩ | ⟨heq, hnd⟩
  · simp [AddPeer, heq] at h
  · by_cases hlen : maxBucketSize ≤ bucket.peers.length
    · simp [AddPeer, heq, hlen] at h
    · by_cases hip : maxPeersPerIP ≤ ipCount np.ip bucket.peers
      · simp [AddPeer, heq, hlen, hip] at h
      · have hip' : ¬ maxPeersPerIP ≤ 0 + ipCount np.ip bucket.peers := by omega
        simp only [AddPeer, heq, if_neg hlen, if_neg hip',
          GoResult.ok.injEq] at h
        subst h
        exact ⟨rfl, by omega, by omega, hnd⟩

/-- `AddPeer` with a duplicate identifier fails with `DuplicatePeer`
(nil-free slice). -/
theorem AddPeer_duplicate {bucket : KBucket} {np q : Peer}
    (hnil : none ∉ bucket.peers) (hq : some q ∈ bucket.peers)
    (hid : q.id = np.id) :
    AddPeer bucket (some np) = .err .duplicatePeer := by
  rcases addScan_result np bucket.peers 0 hnil with ⟨heq, _⟩ | ⟨_, hnd⟩
  · rw [AddPeer, heq]
  · exact absurd hid (hnd q hq)

/-- `AddPeer` at or above capacity with a fresh identifier fails with
`BucketFull` (nil-free slice). -/
theorem AddPeer_full {bucket : KBucket} {np : Peer}
    (hnil : none ∉ bucket.peers)
    (hnd : ∀ q ∈ occupantsOf bucket.peers, q.id ≠ np.id)
    (hlen : maxBucketSize ≤ bucket.peers.length) :
    AddPeer bucket (some np) = .err .bucketFull := by
  rcases addScan_result np bucket.peers 0 hnil with ⟨_, q, hq, hid⟩ | ⟨heq, _⟩
  · exact absurd hid (hnd q (mem_occupantsOf.mpr hq))
  · rw [AddPeer, heq]
    simp [hlen]

/-- `AddPeer` below capacity, fresh identifier, but IP already at the
per-IP cap fails with `TooManyFromSameAddress` (nil-free slice). -/
theorem AddPeer_ipCap {bucket : KBucket} {np : Peer}
    (hnil : none ∉ bucket.peers)
    (hnd : ∀ q ∈ occupantsOf bucket.peers, q.id ≠ np.id)
    (hlen : bucket.peers.length < maxBucketSize)
    (hip : maxPeersPerIP ≤ ipCount np.ip bucket.peers) :
    AddPeer bucket (some np) = .err .tooManyFromSameAddress := by
  rcases addScan_result np bucket.peers 0 hnil with ⟨_, q, hq, hid⟩ | ⟨heq, _⟩
  · exact absurd hid (hnd q (mem_occupantsOf.mpr hq))
  · rw [AddPeer, heq]
    have h1 : ¬ maxBucketSize ≤ bucket.peers.length := by omega
    simp [h1, hip]

/-- `AddPeer` below both caps with a fresh identifier succeeds and
appends at the tail (nil-free slice). -/
theorem AddPeer_success {bucket : KBucket} {np : Peer}
    (hnil : none ∉ bucket.peers)
    (hnd : ∀ q ∈ occupantsOf bucket.peers, q.id ≠ np.id)
    (hlen : bucket.peers.length < maxBucketSize)
    (hip : ipCount np.ip bucket.peers < maxPeersPerIP) :
    AddPeer bucket (some np) = .ok ⟨bucket.peers ++ [some np]⟩ := by
  have hnd' : ∀ q : Peer, some q ∈ bucket.peers → q.id ≠ np.id := by
    intro q hq
    exact hnd q (mem_occupantsOf.mpr hq)
  rcases addScan_result np bucket.peers 0 hnil with ⟨_, q, hq, hid⟩ | ⟨heq, _⟩
  · exact absurd hid (hnd' q hq)
  · rw [AddPeer, heq]
    have h1 : ¬ maxBucketSize ≤ bucket.peers.length := by omega
    have h2 : ¬ maxPeersPerIP ≤ ipCount np.ip bucket.peers := by omega
    simp [h1, h2]

/-- An `AddPeer` call that does not return ok leaves the bucket as it
was (`runAdd` returns the old state). -/
theorem runAdd_eq_of_not_ok {bucket : KBucket} {p : Option Peer}
    (h : ∀ b' : KBucket, AddPeer bucket p ≠ .ok b') :
    runAdd bucket p = bucket := by
  unfold runAdd
  rcases hres : AddPeer bucket p with _ | e | b'
  · rfl
  · rfl
  · exact absurd hres (h b')

theorem goodBucket_empty : GoodBucket emptyKBucket := by
  refine ⟨by simp [emptyKBucket], by simp [emptyKBucket, idsOf], ?_, ?_⟩
  · simp [emptyKBucket, maxBucketSize]
  · intro x
    simp [emptyKBucket, ipCount]

theorem idsOf_append (l₁ l₂ : List (Option Peer)) :
    idsOf (l₁ ++ l₂) = idsOf l₁ ++ idsOf l₂ := by
  simp [idsOf, List.filterMap_append]

theorem ipCount_append (x : Nat) (l₁ l₂ : List (Option Peer)) :
    ipCount x (l₁ ++ l₂) = ipCount x l₁ + ipCount x l₂ := by
  simp [ipCount, List.countP_append]

/-- One `AddPeer` call (with Go's leave-unchanged-on-error semantics)
preserves bucket well-formedness. -/
theorem runAdd_preserves_good {bucket : KBucket} {p : Option Peer}
    (hg : GoodBucket bucket) : GoodBucket (runAdd bucket p) := by
  rcases hres : AddPeer bucket p with _ | e | b'
  · rwa [runAdd, hres]
  · rwa [runAdd, hres]
  · rw [runAdd, hres]
    obtain ⟨np, rfl, hpeers, _⟩ := AddPeer_ok_inversion hres
    obtain ⟨hnil, hnd, hlen, hipc⟩ := hg
    obtain ⟨_, hlen', hip', hnd'⟩ := AddPeer_ok_inversion_nilFree hnil hres
    refine ⟨?_, ?_, ?_, ?_⟩
    · rw [hpeers]
      simp
      exact hnil
    · rw [hpeers, idsOf_append]
      have hsingle : idsOf [some np] = [np.id] := by simp [idsOf]
      rw [hsingle]
      have hnotmem : np.id ∉ idsOf bucket.peers := by
        intro hmem
        obtain ⟨q, hq, hqid⟩ := mem_idsOf.mp hmem
        exact hnd' q hq hqid
      simp [List.nodup_append]
      exact ⟨hnd, hnotmem⟩
    · rw [hpeers]
      simp
      omega
    · intro x
      rw [hpeers, ipCount_append]
      by_cases hx : np.ip = x
      · subst hx
        have hsing : ipCount np.ip [some np] = 1 := by simp [ipCount]
        omega
      · have hsing : ipCount x [some np] = 0 := by simp [ipCount, hx]
        have hx3 := hipc x
        omega

/-- Well-formedness is preserved by any sequence of `AddPeer` calls. -/
theorem runAdds_preserves_good {bucket : KBucket} (inputs : List (Option Peer))
    (hg : GoodBucket bucket) : GoodBucket (runAdds bucket inputs) := by
  induction inputs generalizing bucket with
  | nil => exact hg
  | cons p rest ih => exact ih (runAdd_preserves_good hg)

/-- The occupancy bound alone is preserved by one `AddPeer` call, from
any state whatsoever (even one holding nil entries). -/
theorem runAdd_length_le {bucket : KBucket} {p : Option Peer}
    (h : bucket.peers.length ≤ maxBucketSize) :
    (runAdd bucket p).peers.length ≤ maxBucketSize := by
  rcases hres : AddPeer bucket p with _ | e | b'
  · rwa [runAdd, hres]
  · rwa [runAdd, hres]
  · rw [runAdd, hres]
    obtain ⟨np, rfl, hpeers, hlen⟩ := AddPeer_ok_inversion hres
    rw [hpeers]
    simp
    omega

theorem runAdds_length_le {bucket : KBucket} (inputs : List (Option Peer))
    (h : bucket.peers.length ≤ maxBucketSize) :
    (runAdds bucket inputs).peers.length ≤ maxBucketSize := by
  induction inputs generalizing bucket with
  | nil => exact h
  | cons p rest ih => exact ih (runAdd_length_le h)

/-- A successful lookup returns a stored occupant with the requested
identifier. -/
theorem getPeerLoop_ok_inversion {l : List (Option Peer)} {id : Nat} {p : Peer}
    (h : getPeerLoop id l = .ok p) : some p ∈ l ∧ p.id = id := by
  induction l with
  | nil => simp [getPeerLoop] at h
  | cons o rest ih =>
    match o with
    | none => simp [getPeerLoop] at h
    | some q =>
      by_cases hq : q.id = id
      · have : getPeerLoop id (some q :: rest) = .ok q := by
          simp [getPeerLoop, hq]
        rw [this] at h
        cases h
        exact ⟨List.mem_cons_self _ _, hq⟩
      · have hstep : getPeerLoop id (some q :: rest) = getPeerLoop id rest := by
          simp [getPeerLoop, hq]
        rw [hstep] at h
        obtain ⟨hmem, hid⟩ := ih h
        exact ⟨List.mem_cons_of_mem _ hmem, hid⟩

/-- Lookup on a nil-free slice with no matching identifier fails with
`PeerNotFound`. -/
theorem getPeerLoop_not_found {l : List (Option Peer)} {id : Nat}
    (hnil : none ∉ l) (hnd : ∀ q : Peer, some q ∈ l → q.id ≠ id) :
    getPeerLoop id l = .err .peerNotFound := by
  induction l with
  | nil => rfl
  | cons o rest ih =>
    match o with
    | none => exact absurd (List.mem_cons_self none rest) hnil
    | some q =>
      have hq : ¬ q.id = id := hnd q (List.mem_cons_self _ _)
      have hrest : none ∉ rest := fun h => hnil (List.mem_cons_of_mem _ h)
      have hnd' : ∀ r : Peer, some r ∈ rest → r.id ≠ id := fun r hr =>
        hnd r (List.mem_cons_of_mem _ hr)
      simp [getPeerLoop, hq]
      exact ih hrest hnd'

/-- Lookup on a nil-free slice holding a matching occupant succeeds and
returns a peer with the requested identifier. -/
theorem getPeerLoop_found {l : List (Option Peer)} {id : Nat} {q : Peer}
    (hnil : none ∉ l) (hq : some q ∈ l) (hid : q.id = id) :
    ∃ p : Peer, getPeerLoop id l = .ok p ∧ p.id = id ∧ some p ∈ l := by
  induction l with
  | nil => cases hq
  | cons o rest ih =>
    match o with
    | none => exact absurd (List.mem_cons_self none rest) hnil
    | some r =>
      by_cases hr : r.id = id
      · refine ⟨r, ?_, hr, List.mem_cons_self _ _⟩
        simp [getPeerLoop, hr]
      · have hrest : none ∉ rest := fun h => hnil (List.mem_cons_of_mem _ h)
        have hq' : some q ∈ rest := by
          rcases List.mem_cons.mp hq with h | h
          · cases Option.some.inj h
            exact absurd hid hr
          · exact h
        obtain ⟨p, hloop, hpid, hpmem⟩ := ih hrest hq'
        refine ⟨p, ?_, hpid, List.mem_cons_of_mem _ hpmem⟩
        simp [getPeerLoop, hr]
        exact hloop

/-- Appending a fresh-identifier peer at the tail and then looking it
up returns exactly that peer (nil-free slice with no earlier match). -/
theorem getPeerLoop_append_self {l : List (Option Peer)} {p : Peer}
    (hnil : none ∉ l) (hnd : ∀ q : Peer, some q ∈ l → q.id ≠ p.id) :
    getPeerLoop p.id (l ++ [some p]) = .ok p := by
  induction l with
  | nil => simp [getPeerLoop]
  | cons o rest ih =>
    match o with
    | none => exact absurd (List.mem_cons_self none rest) hnil
    | some q =>
      have hq : ¬ q.id = p.id := hnd q (List.mem_cons_self _ _)
      have hrest : none ∉ rest := fun h => hnil (List.mem_cons_of_mem _ h)
      have hnd' : ∀ r : Peer, some r ∈ rest → r.id ≠ p.id := fun r hr =>
        hnd r (List.mem_cons_of_mem _ hr)
      simp only [List.cons_append, getPeerLoop, beq_iff_eq, if_neg hq]
      exact ih hrest hnd'

/-- The remove loop on a nil-free slice with no matching identifier
fails with `PeerNotFound`. -/
theorem removeLoop_not_found {l : List (Option Peer)} {t : Peer}
    (hnil : none ∉ l) (hnd : ∀ q : Peer, some q ∈ l → q.id ≠ t.id) :
    removeLoop t l = .err .peerNotFound := by
  induction l with
  | nil => rfl
  | cons o rest ih =>
    match o with
    | none => exact absurd (List.mem_cons_self none rest) hnil
    | some q =>
      have hq : ¬ q.id = t.id := hnd q (List.mem_cons_self _ _)
      have hrest : none ∉ rest := fun h => hnil (List.mem_cons_of_mem _ h)
      have hnd' : ∀ r : Peer, some r ∈ rest → r.id ≠ t.id := fun r hr =>
        hnd r (List.mem_cons_of_mem _ hr)
      simp only [removeLoop, peerEqual, beq_iff_eq, if_neg hq]
      rw [ih hrest hnd']

/-- The remove loop on a nil-free slice holding a matching occupant:
the slice splits around the first match, which is spliced out with the
relative order of the rest preserved. -/
theorem removeLoop_found {l : List (Option Peer)} {t q : Peer}
    (hnil : none ∉ l) (hq : some q ∈ l) (hid : q.id = t.id) :
    ∃ (l₁ l₂ : List (Option Peer)) (r : Peer),
      l = l₁ ++ some r :: l₂ ∧ r.id = t.id ∧
      (∀ q' : Peer, some q' ∈ l₁ → q'.id ≠ t.id) ∧
      removeLoop t l = .ok (l₁ ++ l₂) := by
  induction l with
  | nil => cases hq
  | cons o rest ih =>
    match o with
    | none => exact absurd (List.mem_cons_self none rest) hnil
    | some r₀ =>
      by_cases hr : r₀.id = t.id
      · refine ⟨[], rest, r₀, by simp, hr, by simp, ?_⟩
        simp [removeLoop, peerEqual, hr]
      · have hrest : none ∉ rest := fun h => hnil (List.mem_cons_of_mem _ h)
        have hq' : some q ∈ rest := by
          rcases List.mem_cons.mp hq with h | h
          · cases Option.some.inj h
            exact absurd hid hr
          · exact h
        obtain ⟨l₁, l₂, r, hsplit, hrid, hfresh, hrem⟩ := ih hrest hq'
        refine ⟨some r₀ :: l₁, l₂, r, by simp [hsplit], hrid, ?_, ?_⟩
        · intro q' hq'mem
          rcases List.mem_cons.mp hq'mem with h | h
          · cases Option.some.inj h
            exact hr
          · exact hfresh q' h
        · simp [removeLoop, peerEqual, hr, hrem]

/-- On a nil-free snapshot the filter's dereferences all succeed. -/
theorem derefAll_ok {l : List (Option Peer)} (hnil : none ∉ l) :
    derefAll l = .ok (occupantsOf l) := by
  induction l with
  | nil => rfl
  | cons o rest ih =>
    match o with
    | none => exact absurd (List.mem_cons_self none rest) hnil
    | some p =>
      have hrest : none ∉ rest := fun h => hnil (List.mem_cons_of_mem _ h)
      have hocc : occupantsOf (some p :: rest) = p :: occupantsOf rest := by
        simp [occupantsOf]
      rw [hocc, derefAll, ih hrest]

/-- In a slice with pairwise distinct identifiers, every entry other
than the spliced-out one carries a different identifier. -/
theorem nodup_ids_split {l₁ l₂ : List (Option Peer)} {r : Peer}
    (hnd : (idsOf (l₁ ++ some r :: l₂)).Nodup) :
    ∀ q : Peer, some q ∈ l₁ ++ l₂ → q.id ≠ r.id := by
  rw [idsOf_append] at hnd
  have hcons : idsOf (some r :: l₂) = r.id :: idsOf l₂ := by simp [idsOf]
  rw [hcons, List.nodup_append] at hnd
  obtain ⟨h₁, h₂, hdisj⟩ := hnd
  intro q hq hid
  rcases List.mem_append.mp hq with h | h
  · have hmem : q.id ∈ idsOf l₁ := mem_idsOf.mpr ⟨q, h, rfl⟩
    exact hdisj hmem (by rw [hid]; exact List.mem_cons_self _ _)
  · have hmem : q.id ∈ idsOf l₂ := mem_idsOf.mpr ⟨q, h, rfl⟩
    have hnc := List.nodup_cons.mp h₂
    exact hnc.1 (by rw [← hid]; exact hmem)

/-- C1.  The claim says a newly created bucket is empty, with
`CountPeers() = 0`, `CountRemainingPeers() = 16`, `IsFull() = false`
and `GetRandomPeer()` failing with `EmptyBucket`.  The constructor in
fact pre-fills the slice with 16 nil pointers, so the fresh bucket
reports itself full, with no remaining room, and random selection
returns a nil peer with no error.  (`OldestPeer()` does return nil —
but only because slot 0 holds a nil placeholder.) -/
theorem C1_new_bucket_reports_full :
    CountPeers newKBucket = 16 ∧
    CountRemainingPeers newKBucket = 0 ∧
    IsFull newKBucket = true ∧
    OldestPeer newKBucket = none ∧
    GetRandomPeer newKBucket 0 true = .ok none ∧
    GetRandomPeer newKBucket 0 true ≠ .err .emptyBucket := by
  refine ⟨rfl, rfl, rfl, rfl, rfl, ?_⟩
  intro h
  cases h

/-- C2 counterexample.  The claim asserts that an `AddPeer` call made
when occupancy already equals `maxBucketSize` fails with `BucketFull`.
On a full bucket built by sixteen successful adds, adding a peer whose
identifier duplicates an occupant fails with `DuplicatePeer`, not
`BucketFull` — the duplicate scan runs before the capacity check. -/
theorem C2_full_bucket_duplicate_beats_bucketFull :
    CountPeers fullBucket16 = maxBucketSize ∧
    AddPeer fullBucket16 (some (mkPeer 0 50)) = .err .duplicatePeer ∧
    AddPeer fullBucket16 (some (mkPeer 0 50)) ≠ .err .bucketFull := by
  decide

/-- C2 (amended).  Occupancy never exceeds `maxBucketSize` under any
sequence of `AddPeer` calls from any state within the bound (the
capacity check runs against the count before insertion); and an
`AddPeer` call at occupancy `maxBucketSize` whose peer is non-nil and
no duplicate fails with `BucketFull`, leaving the contents unchanged.
(A duplicate fails with `DuplicatePeer`, a nil peer with
`InvalidArgument` — also leaving the contents unchanged.) -/
theorem C2_capacity_invariant :
    (∀ (bucket : KBucket) (inputs : List (Option Peer)),
        CountPeers bucket ≤ maxBucketSize →
        CountPeers (runAdds bucket inputs) ≤ maxBucketSize) ∧
    (∀ (bucket : KBucket) (np : Peer),
        none ∉ bucket.peers →
        (∀ q ∈ occupantsOf bucket.peers, q.id ≠ np.id) →
        CountPeers bucket = maxBucketSize →
        AddPeer bucket (some np) = .err .bucketFull ∧
          runAdd bucket (some np) = bucket) := by
  constructor
  · intro bucket inputs h
    exact runAdds_length_le inputs h
  · intro bucket np hnil hnd hcount
    have hfull : AddPeer bucket (some np) = .err .bucketFull :=
      AddPeer_full hnil hnd (le_of_eq hcount.symm)
    refine ⟨hfull, runAdd_eq_of_not_ok ?_⟩
    intro b' hok
    rw [hfull] at hok
    cases hok

/-- C2 witness: the full bucket built by sixteen distinct adds rejects
a seventeenth fresh peer with `BucketFull` and keeps its contents. -/
theorem C2_capacity_invariant_witness :
    (CountPeers fullBucket16 ≤ maxBucketSize ∧
      none ∉ fullBucket16.peers ∧
      (∀ q ∈ occupantsOf fullBucket16.peers, q.id ≠ (mkPeer 20 20).id) ∧
      CountPeers fullBucket16 = maxBucketSize) ∧
    CountPeers (runAdds fullBucket16 [some (mkPeer 21 21)]) ≤ maxBucketSize ∧
    AddPeer fullBucket16 (some (mkPeer 20 20)) = .err .bucketFull ∧
    runAdd fullBucket16 (some (mkPeer 20 20)) = fullBucket16 :=
  ⟨⟨by decide, by decide, by decide, by decide⟩,
    C2_capacity_invariant.1 fullBucket16 [some (mkPeer 21 21)] (by decide),
    (C2_capacity_invariant.2 fullBucket16 (mkPeer 20 20) (by decide) (by decide)
      (by decide)).1,
    (C2_capacity_invariant.2 fullBucket16 (mkPeer 20 20) (by decide) (by decide)
      (by decide)).2⟩

/-- C3 counterexample.  The claim asserts that an `AddPeer` call whose
peer's IP is already held by `maxPeersPerIP` occupants fails with
`TooManyFromSameAddress`.  On a full bucket whose IP-100 population
already sits at the cap, a fresh peer on IP 100 fails with
`BucketFull` instead — the capacity check runs before the per-IP
check. -/
theorem C3_full_bucket_wins_over_ip_cap :
    CountPeers fullIpBucket = maxBucketSize ∧
    ipCount 100 fullIpBucket.peers = maxPeersPerIP ∧
    AddPeer fullIpBucket (some (mkPeer 16 100)) = .err .bucketFull ∧
    AddPeer fullIpBucket (some (mkPeer 16 100)) ≠ .err .tooManyFromSameAddress := by
  decide

/-- C3 (amended).  Under any sequence of `AddPeer` calls from the
intended-empty state, no IP is ever shared by more than `maxPeersPerIP`
occupants; and an `AddPeer` call whose peer is non-nil, no duplicate,
made when the bucket is below capacity but the peer's IP already has
`maxPeersPerIP` occupants, fails with `TooManyFromSameAddress` and
leaves the contents unchanged.  (At full occupancy `BucketFull` wins; a
duplicate fails with `DuplicatePeer`.) -/
theorem C3_per_ip_invariant :
    (∀ (inputs : List (Option Peer)) (x : Nat),
        ipCount x (runAdds emptyKBucket inputs).peers ≤ maxPeersPerIP) ∧
    (∀ (bucket : KBucket) (np : Peer),
        none ∉ bucket.peers →
        (∀ q ∈ occupantsOf bucket.peers, q.id ≠ np.id) →
        CountPeers bucket < maxBucketSize →
        maxPeersPerIP ≤ ipCount np.ip bucket.peers →
        AddPeer bucket (some np) = .err .tooManyFromSameAddress ∧
          runAdd bucket (some np) = bucket) := by
  constructor
  · intro inputs x
    exact (runAdds_preserves_good inputs goodBucket_empty).2.2.2 x
  · intro bucket np hnil hnd hcount hip
    have herr : AddPeer bucket (some np) = .err .tooManyFromSameAddress :=
      AddPeer_ipCap hnil hnd hcount hip
    refine ⟨herr, runAdd_eq_of_not_ok ?_⟩
    intro b' hok
    rw [herr] at hok
    cases hok

/-- C3 witness: three occupants on IP 100 in a non-full bucket make a
fourth fresh peer on IP 100 fail with `TooManyFromSameAddress`,
contents unchanged; and the per-IP bound holds after the `seqIp` run. -/
theorem C3_per_ip_invariant_witness :
    (none ∉ ipCapBucket.peers ∧
      (∀ q ∈ occupantsOf ipCapBucket.peers, q.id ≠ (mkPeer 9 100).id) ∧
      CountPeers ipCapBucket < maxBucketSize ∧
      maxPeersPerIP ≤ ipCount 100 ipCapBucket.peers) ∧
    ipCount 100 (runAdds emptyKBucket seqIp).peers ≤ maxPeersPerIP ∧
    AddPeer ipCapBucket (some (mkPeer 9 100)) = .err .tooManyFromSameAddress ∧
    runAdd ipCapBucket (some (mkPeer 9 100)) = ipCapBucket :=
  ⟨⟨by decide, by decide, by decide, by decide⟩,
    C3_per_ip_invariant.1 seqIp 100,
    (C3_per_ip_invariant.2 ipCapBucket (mkPeer 9 100) (by decide) (by decide)
      (by decide) (by decide)).1,
    (C3_per_ip_invariant.2 ipCapBucket (mkPeer 9 100) (by decide) (by decide)
      (by decide) (by decide)).2⟩

/-- C4.  Adding a peer whose identifier equals some occupant's fails
with `DuplicatePeer` and mutates nothing (on any nil-free state); and
along any sequence of `AddPeer` calls from the intended-empty state the
occupants' identifiers stay pairwise distinct. -/
theorem C4_duplicate_identifier_rejected :
    (∀ (bucket : KBucket) (p : Peer),
        none ∉ bucket.peers →
        (∃ q ∈ occupantsOf bucket.peers, q.id = p.id) →
        AddPeer bucket (some p) = .err .duplicatePeer ∧
          runAdd bucket (some p) = bucket) ∧
    (∀ inputs : List (Option Peer),
        (idsOf (runAdds emptyKBucket inputs).peers).Nodup) := by
  constructor
  · intro bucket p hnil hdup
    obtain ⟨q, hq, hid⟩ := hdup
    have herr : AddPeer bucket (some p) = .err .duplicatePeer :=
      AddPeer_duplicate hnil (mem_occupantsOf.mp hq) hid
    refine ⟨herr, runAdd_eq_of_not_ok ?_⟩
    intro b' hok
    rw [herr] at hok
    cases hok
  · intro inputs
    exact (runAdds_preserves_good inputs goodBucket_empty).2.1

/-- C4 witness: re-adding the identifier already stored in a
single-occupant bucket fails with `DuplicatePeer` and keeps the
contents; identifiers stay distinct after the `seq16` run. -/
theorem C4_duplicate_identifier_rejected_witness :
    (none ∉ bucket3.peers ∧ (∃ q ∈ occupantsOf bucket3.peers, q.id = (mkPeer 1 9).id)) ∧
    (idsOf (runAdds emptyKBucket seq16).peers).Nodup ∧
    AddPeer bucket3 (some (mkPeer 1 9)) = .err .duplicatePeer ∧
    runAdd bucket3 (some (mkPeer 1 9)) = bucket3 :=
  ⟨⟨by decide, by decide⟩,
    C4_duplicate_identifier_rejected.2 seq16,
    (C4_duplicate_identifier_rejected.1 bucket3 (mkPeer 1 9) (by decide)
      (by decide)).1,
    (C4_duplicate_identifier_rejected.1 bucket3 (mkPeer 1 9) (by decide)
      (by decide)).2⟩

/-- On a nil-free non-empty bucket, `GetClosestPeers` reduces to
sorting the qualifying occupants and slicing with `max`. -/
theorem GetClosestPeers_nonempty (bucket : KBucket) (target : Nat) (mx : Int)
    (hnil : none ∉ bucket.peers) (hlen : 0 < bucket.peers.length) :
    GetClosestPeers bucket target mx =
      if mx < ((((occupantsOf bucket.peers).filter qualifies).mergeSort
          (distLe target)).length : Int) then
        if 0 ≤ mx then
          .ok ((((occupantsOf bucket.peers).filter qualifies).mergeSort
            (distLe target)).take mx.toNat)
        else .panics
      else
        .ok (((occupantsOf bucket.peers).filter qualifies).mergeSort
          (distLe target)) := by
  have hderef : derefAll (Peers bucket) = .ok (occupantsOf bucket.peers) :=
    derefAll_ok hnil
  simp only [GetClosestPeers, if_pos hlen, hderef]

/-- C5 counterexample.  The claim quantifies over every `max`, but
`max` is a Go `int`: on a bucket holding one verified, alive peer,
`GetClosestPeers(target, -1)` reaches the slice expression
`peerCpy[0:max]` and panics (slice bounds out of range) instead of
returning a sequence. -/
theorem C5_negative_max_panics :
    GetClosestPeers ⟨[some (mkPeer 0 0)]⟩ 0 (-1) = .panics ∧
    GetClosestPeers ⟨[some (mkPeer 0 0)]⟩ 0 (-1) ≠ .ok [] := by
  have h : GetClosestPeers ⟨[some (mkPeer 0 0)]⟩ 0 (-1) = .panics := by
    rw [GetClosestPeers_nonempty _ 0 (-1) (by decide) (by decide)]
    simp [occupantsOf, qualifies, mkPeer, List.mergeSort_singleton]
  refine ⟨h, ?_⟩
  rw [h]
  intro hc
  cases hc

/-- C5 (amended to `max ≥ 0`).  On a nil-free bucket and a
non-negative `max`, `GetClosestPeers` returns (never errs, never
panics) a list of occupants that are all IP-verified and alive, in
non-decreasing XOR distance to the target, of length exactly
`min max (number of qualifying occupants)`; in particular the result
is empty — not an error — when the bucket is empty or nothing
qualifies. -/
theorem C5_closest_peers_spec (bucket : KBucket) (target : Nat) (mx : Int)
    (hnil : none ∉ bucket.peers) (hmx : 0 ≤ mx) :
    ∃ l : List Peer,
      GetClosestPeers bucket target mx = .ok l ∧
      (∀ p ∈ l, some p ∈ bucket.peers ∧ qualifies p = true) ∧
      l.Pairwise (fun a b => idXor a.id target ≤ idXor b.id target) ∧
      l.length =
        min mx.toNat ((occupantsOf bucket.peers).filter qualifies).length := by
  have htrans : ∀ a b c : Peer, distLe target a b = true →
      distLe target b c = true → distLe target a c = true := by
    intro a b c hab hbc
    simp only [distLe, decide_eq_true_iff] at hab hbc ⊢
    omega
  have htotal : ∀ a b : Peer,
      (distLe target a b || distLe target b a) = true := by
    intro a b
    simp only [distLe, Bool.or_eq_true, decide_eq_true_iff]
    omega
  have hperm := List.mergeSort_perm
    ((occupantsOf bucket.peers).filter qualifies) (distLe target)
  have hslen := hperm.length_eq
  have hsorted := List.sorted_mergeSort htrans htotal
    ((occupantsOf bucket.peers).filter qualifies)
  have hmem_s : ∀ p ∈ ((occupantsOf bucket.peers).filter qualifies).mergeSort
      (distLe target), some p ∈ bucket.peers ∧ qualifies p = true := by
    intro p hp
    obtain ⟨hocc, hqual⟩ := List.mem_filter.mp (hperm.mem_iff.mp hp)
    exact ⟨mem_occupantsOf.mp hocc, hqual⟩
  by_cases hlen : 0 < bucket.peers.length
  · rw [GetClosestPeers_nonempty bucket target mx hnil hlen]
    by_cases hcmp : mx < ((((occupantsOf bucket.peers).filter
        qualifies).mergeSort (distLe target)).length : Int)
    · rw [if_pos hcmp, if_pos hmx]
      refine ⟨_, rfl, ?_, ?_, ?_⟩
      · intro p hp
        exact hmem_s p ((List.take_sublist _ _).mem hp)
      · have hpw := List.Pairwise.sublist (List.take_sublist mx.toNat _) hsorted
        refine hpw.imp ?_
        intro a b hab
        simpa only [distLe, decide_eq_true_iff] using hab
      · rw [List.length_take, hslen]
    · rw [if_neg hcmp]
      refine ⟨_, rfl, hmem_s, ?_, ?_⟩
      · refine hsorted.imp ?_
        intro a b hab
        simpa only [distLe, decide_eq_true_iff] using hab
      · omega
  · have hempty : bucket.peers = [] :=
      List.length_eq_zero.mp (by omega)
    refine ⟨[], ?_, by simp, List.Pairwise.nil, ?_⟩
    · simp [GetClosestPeers, hlen]
    · simp [hempty, occupantsOf]

/-- Indexing a nil-free slice within bounds yields a stored occupant. -/
theorem getD_some_of_nilFree {l : List (Option Peer)} (hnil : none ∉ l)
    {i : Nat} (hi : i < l.length) :
    ∃ p : Peer, l.getD i none = some p ∧ some p ∈ l := by
  have hmem : l.getD i none ∈ l := by
    rw [List.getD_eq_getElem l none hi]
    exact List.getElem_mem hi
  rcases ho : l.getD i none with _ | p
  · rw [ho] at hmem
    exact absurd hmem hnil
  · exact ⟨p, rfl, by rw [← ho]; exact hmem⟩

set_option maxRecDepth 4096 in
/-- C6 counterexample.  Selection draws a single random byte and takes
it modulo the occupant count, so on a three-occupant bucket 86 of the
256 equiprobable byte values select occupant 0 while only 85 select
occupant 2 — the distribution is not uniform. -/
theorem C6_modulo_bias :
    ((List.range 256).countP (fun r =>
      decide (GetRandomPeer bucket3 r true = .ok (some (mkPeer 0 0))))) = 86 ∧
    ((List.range 256).countP (fun r =>
      decide (GetRandomPeer bucket3 r true = .ok (some (mkPeer 2 2))))) = 85 := by
  decide

/-- C6 (amended).  On a nil-free bucket, `GetRandomPeer` with a
successfully read byte `r` returns the occupant at index
`r mod count` when any occupant exists (uniform only when the count
divides 256), fails with `EmptyBucket` on an empty bucket, and fails
with `RandomSourceFailure` whenever the entropy read fails. -/
theorem C6_random_peer_spec (bucket : KBucket) (r : Nat)
    (hnil : none ∉ bucket.peers) :
    (0 < bucket.peers.length →
      GetRandomPeer bucket r true =
        .ok (bucket.peers.getD (r % bucket.peers.length) none) ∧
      ∃ p : Peer,
        bucket.peers.getD (r % bucket.peers.length) none = some p ∧
        some p ∈ bucket.peers) ∧
    (bucket.peers.length = 0 →
      GetRandomPeer bucket r true = .err .emptyBucket) ∧
    GetRandomPeer bucket r false = .err .randomSourceFailure := by
  refine ⟨?_, ?_, ?_⟩
  · intro hlen
    refine ⟨by simp [GetRandomPeer, hlen], ?_⟩
    exact getD_some_of_nilFree hnil (Nat.mod_lt r hlen)
  · intro hlen
    simp [GetRandomPeer, hlen]
  · simp [GetRandomPeer]

/-- C6 witness: on the three-occupant bucket the drawn byte 5 selects
the occupant at index 5 mod 3 = 2; a failed entropy read propagates. -/
theorem C6_random_peer_spec_witness :
    (none ∉ bucket3.peers ∧ 0 < bucket3.peers.length) ∧
    (GetRandomPeer bucket3 5 true =
      .ok (bucket3.peers.getD (5 % bucket3.peers.length) none) ∧
      ∃ p : Peer,
        bucket3.peers.getD (5 % bucket3.peers.length) none = some p ∧
        some p ∈ bucket3.peers) ∧
    GetRandomPeer bucket3 5 false = .err .randomSourceFailure :=
  ⟨⟨by decide, by decide⟩,
    (C6_random_peer_spec bucket3 5 (by decide)).1 (by decide),
    (C6_random_peer_spec bucket3 5 (by decide)).2.2⟩

/-- C5 witness: on the three-occupant bucket with target 7 and max 5,
`GetClosestPeers` returns a qualifying, distance-sorted list of length
min 5 3 = 3. -/
theorem C5_closest_peers_spec_witness :
    (none ∉ bucket3.peers ∧ (0 : Int) ≤ 5) ∧
    (∃ l : List Peer,
      GetClosestPeers bucket3 7 5 = .ok l ∧
      (∀ p ∈ l, some p ∈ bucket3.peers ∧ qualifies p = true) ∧
      l.Pairwise (fun a b => idXor a.id 7 ≤ idXor b.id 7) ∧
      l.length =
        min (5 : Int).toNat
          ((occupantsOf bucket3.peers).filter qualifies).length) :=
  ⟨⟨by decide, by decide⟩,
    C5_closest_peers_spec bucket3 7 5 (by decide) (by decide)⟩

/-- C7.  When `GetPeer(id)` succeeds, `SetPeerAlive(id)` succeeds and
leaves the (freshness-updated) peer at the tail of the ordering, so
`OldestPeer()` no longer returns a peer with that identifier unless it
is the only occupant; when no occupant has the identifier,
`SetPeerAlive` fails with `PeerNotFound`. -/
theorem C7_set_peer_alive_moves_to_tail (bucket : KBucket) (id : Nat)
    (hnil : none ∉ bucket.peers) (hnd : (idsOf bucket.peers).Nodup) :
    (∀ p : Peer, GetPeer bucket id = .ok p →
      ∃ b' : KBucket, SetPeerAlive bucket id = .ok b' ∧
        b'.peers.getLast? = some (some (updateType p)) ∧
        (updateType p).id = id ∧
        (1 < b'.peers.length →
          ∀ q : Peer, OldestPeer b' = some q → q.id ≠ id)) ∧
    ((∀ q ∈ occupantsOf bucket.peers, q.id ≠ id) →
      SetPeerAlive bucket id = .err .peerNotFound) := by
  constructor
  · intro p hok
    have hok' : getPeerLoop id bucket.peers = .ok p := hok
    obtain ⟨hpmem, hpid⟩ := getPeerLoop_ok_inversion hok'
    have hid2 : p.id = (updateType p).id := rfl
    obtain ⟨l₁, l₂, r, hsplit, hrid, hfresh, hrem⟩ :=
      removeLoop_found hnil hpmem hid2
    refine ⟨⟨(l₁ ++ l₂) ++ [some (updateType p)]⟩, ?_, ?_, ?_, ?_⟩
    · simp [SetPeerAlive, GetPeer, hok', pushToEnd, hrem]
    · exact List.getLast?_concat _
    · rw [show (updateType p).id = p.id from rfl, hpid]
    · intro hlen1 q hq
      rcases hcase : l₁ ++ l₂ with _ | ⟨o, rest⟩
    -- a single occupant: contradiction with 1 < length
      · rw [hcase] at hlen1
        simp at hlen1
      · rw [hcase] at hq
        have ho : o = some q := by
          simpa [OldestPeer] using hq
        have hqmem : some q ∈ l₁ ++ l₂ := by
          rw [hcase, ← ho]
          exact List.mem_cons_self _ _
        have hnd' : (idsOf (l₁ ++ some r :: l₂)).Nodup := by
          rw [← hsplit]
          exact hnd
        have hne := nodup_ids_split hnd' q hqmem
        rw [hrid, ← hid2, hpid] at hne
        exact hne
  · intro hfreshAll
    have hget : getPeerLoop id bucket.peers = .err .peerNotFound :=
      getPeerLoop_not_found hnil
        (fun q hq => hfreshAll q (mem_occupantsOf.mpr hq))
    simp [SetPeerAlive, GetPeer, hget]

/-- C7 witness: marking occupant 1 of the three-occupant bucket alive
moves it to the tail and the head no longer bears identifier 1. -/
theorem C7_set_peer_alive_moves_to_tail_witness :
    (none ∉ bucket3.peers ∧ (idsOf bucket3.peers).Nodup ∧
      GetPeer bucket3 1 = .ok (mkPeer 1 1)) ∧
    (∃ b' : KBucket, SetPeerAlive bucket3 1 = .ok b' ∧
      b'.peers.getLast? = some (some (updateType (mkPeer 1 1))) ∧
      (updateType (mkPeer 1 1)).id = 1 ∧
      (1 < b'.peers.length →
        ∀ q : Peer, OldestPeer b' = some q → q.id ≠ 1)) :=
  ⟨⟨by decide, by decide, by decide⟩,
    (C7_set_peer_alive_moves_to_tail bucket3 1 (by decide) (by decide)).1
      (mkPeer 1 1) (by decide)⟩

/-- A successful remove found the first identifier match and spliced
exactly it out, preserving the order of the rest. -/
theorem removeLoop_ok_inversion {l l' : List (Option Peer)} {t : Peer}
    (hnil : none ∉ l) (h : removeLoop t l = .ok l') :
    ∃ (l₁ l₂ : List (Option Peer)) (r : Peer),
      l = l₁ ++ some r :: l₂ ∧ r.id = t.id ∧
      (∀ q' : Peer, some q' ∈ l₁ → q'.id ≠ t.id) ∧ l' = l₁ ++ l₂ := by
  induction l generalizing l' with
  | nil => simp [removeLoop] at h
  | cons o rest ih =>
    match o with
    | none => exact absurd (List.mem_cons_self none rest) hnil
    | some r₀ =>
      have hrest : none ∉ rest := fun hm => hnil (List.mem_cons_of_mem _ hm)
      by_cases hr : r₀.id = t.id
      · have hred : removeLoop t (some r₀ :: rest) = .ok rest := by
          simp [removeLoop, peerEqual, hr]
        rw [hred] at h
        cases h
        exact ⟨[], rest, r₀, by simp, hr, by simp, rfl⟩
      · rcases hrec : removeLoop t rest with _ | e | l''
        · rw [show removeLoop t (some r₀ :: rest) = .panics by
            simp [removeLoop, peerEqual, hr, hrec]] at h
          cases h
        · rw [show removeLoop t (some r₀ :: rest) = .err e by
            simp [removeLoop, peerEqual, hr, hrec]] at h
          cases h
        · rw [show removeLoop t (some r₀ :: rest) = .ok (some r₀ :: l'') by
            simp [removeLoop, peerEqual, hr, hrec]] at h
          cases h
          obtain ⟨l₁, l₂, r, hsplit, hrid, hfresh, hrest'⟩ := ih hrest hrec
          refine ⟨some r₀ :: l₁, l₂, r, by simp [hsplit], hrid, ?_,
            by simp [hrest']⟩
          intro q' hq'
          rcases List.mem_cons.mp hq' with hh | hh
          · cases Option.some.inj hh
            exact hr
          · exact hfresh q' hh

/-- C8.  A successful `AddPeer(p)` followed by `GetPeer(p.id)` returns
`p` itself; a successful `RemovePeer(p)` splices out exactly the one
matching entry, preserving the relative order of the rest, after which
`GetPeer(p.id)` fails with `PeerNotFound`; and `RemovePeer` of an
absent identifier fails with `PeerNotFound`. -/
theorem C8_round_trip (bucket : KBucket) (p : Peer)
    (hnil : none ∉ bucket.peers) (hnd : (idsOf bucket.peers).Nodup) :
    (∀ b' : KBucket, AddPeer bucket (some p) = .ok b' →
      GetPeer b' p.id = .ok p) ∧
    (∀ b' : KBucket, RemovePeer bucket (some p) = .ok b' →
      GetPeer b' p.id = .err .peerNotFound ∧
      ∃ (l₁ l₂ : List (Option Peer)) (r : Peer),
        bucket.peers = l₁ ++ some r :: l₂ ∧ r.id = p.id ∧
        b'.peers = l₁ ++ l₂) ∧
    ((∀ q ∈ occupantsOf bucket.peers, q.id ≠ p.id) →
      RemovePeer bucket (some p) = .err .peerNotFound) := by
  refine ⟨?_, ?_, ?_⟩
  · intro b' hok
    obtain ⟨hpeers, _, _, hnd'⟩ := AddPeer_ok_inversion_nilFree hnil hok
    have : getPeerLoop p.id (bucket.peers ++ [some p]) = .ok p :=
      getPeerLoop_append_self hnil hnd'
    rw [GetPeer, hpeers]
    exact this
  · intro b' hok
    rcases hrem : removeLoop p bucket.peers with _ | e | l'
    · rw [RemovePeer, hrem] at hok
      cases hok
    · rw [RemovePeer, hrem] at hok
      cases hok
    · rw [RemovePeer, hrem] at hok
      cases hok
      obtain ⟨l₁, l₂, r, hsplit, hrid, _, rfl⟩ :=
        removeLoop_ok_inversion hnil hrem
      have hnd' : (idsOf (l₁ ++ some r :: l₂)).Nodup := by
        rw [← hsplit]
        exact hnd
      have hother := nodup_ids_split hnd'
      have hnil' : none ∉ l₁ ++ l₂ := by
        intro hm
        apply hnil
        rw [hsplit]
        rcases List.mem_append.mp hm with hh | hh
        · exact List.mem_append.mpr (Or.inl hh)
        · exact List.mem_append.mpr (Or.inr (List.mem_cons_of_mem _ hh))
      constructor
      · exact getPeerLoop_not_found hnil'
          (fun q hq => by rw [← hrid]; exact hother q hq)
      · exact ⟨l₁, l₂, r, hsplit, hrid, rfl⟩
  · intro hfreshAll
    rw [RemovePeer, removeLoop_not_found hnil
      (fun q hq => hfreshAll q (mem_occupantsOf.mpr hq))]

/-- C8 witness: adding peer 2 to a one-occupant bucket makes it
retrievable; removing occupant 1 from the three-occupant bucket splices
it out and the identifier is gone. -/
theorem C8_round_trip_witness :
    (none ∉ bucket3.peers ∧ (idsOf bucket3.peers).Nodup ∧
      RemovePeer bucket3 (some (mkPeer 1 1)) =
        .ok ⟨[some (mkPeer 0 0), some (mkPeer 2 2)]⟩ ∧
      AddPeer (⟨[some (mkPeer 1 1)]⟩ : KBucket) (some (mkPeer 2 2)) =
        .ok ⟨[some (mkPeer 1 1), some (mkPeer 2 2)]⟩) ∧
    GetPeer (⟨[some (mkPeer 0 0), some (mkPeer 2 2)]⟩ : KBucket)
      (mkPeer 1 1).id = .err .peerNotFound ∧
    GetPeer (⟨[some (mkPeer 1 1), some (mkPeer 2 2)]⟩ : KBucket)
      (mkPeer 2 2).id = .ok (mkPeer 2 2) :=
  ⟨⟨by decide, by decide, by decide, by decide⟩,
    ((C8_round_trip bucket3 (mkPeer 1 1) (by decide) (by decide)).2.1
      ⟨[some (mkPeer 0 0), some (mkPeer 2 2)]⟩ (by decide)).1,
    (C8_round_trip (⟨[some (mkPeer 1 1)]⟩ : KBucket) (mkPeer 2 2)
      (by decide) (by decide)).1
      ⟨[some (mkPeer 1 1), some (mkPeer 2 2)]⟩ (by decide)⟩

/-- C9.  `Peers` copies the current contents into a freshly allocated
backing array; subsequent `AddPeer` or `RemovePeer` calls write (at
worst in place) the bucket's own array, so the snapshot still holds
the contents observed at copy time. -/
theorem C9_snapshot_isolation (h : Heap) (bucketArr : Nat)
    (p q : Option Peer) (hlt : bucketArr < h.next) :
    ((PeersSnapshot h bucketArr).1.arrays (PeersSnapshot h bucketArr).2 =
      h.arrays bucketArr) ∧
    ((AddPeerHeap (PeersSnapshot h bucketArr).1 bucketArr p).arrays
      (PeersSnapshot h bucketArr).2 = h.arrays bucketArr) ∧
    ((RemovePeerHeap (PeersSnapshot h bucketArr).1 bucketArr q).arrays
      (PeersSnapshot h bucketArr).2 = h.arrays bucketArr) := by
  have hne : ¬ (h.next = bucketArr) := by omega
  have hsnap : (PeersSnapshot h bucketArr).2 = h.next := rfl
  have harr : ∀ j, (PeersSnapshot h bucketArr).1.arrays j =
      if j = h.next then h.arrays bucketArr else h.arrays j := by
    intro j
    rfl
  refine ⟨?_, ?_, ?_⟩
  · rw [hsnap, harr]
    simp
  · rw [hsnap]
    unfold AddPeerHeap
    rcases AddPeer ⟨(PeersSnapshot h bucketArr).1.arrays bucketArr⟩ p with
      _ | e | b
    · rw [harr]
      simp
    · rw [harr]
      simp
    · have hw : (writeArr (PeersSnapshot h bucketArr).1 bucketArr
          b.peers).arrays h.next =
          (PeersSnapshot h bucketArr).1.arrays h.next := by
        simp [writeArr, hne]
      rw [hw, harr]
      simp
  · rw [hsnap]
    unfold RemovePeerHeap
    rcases RemovePeer ⟨(PeersSnapshot h bucketArr).1.arrays bucketArr⟩ q with
      _ | e | b
    · rw [harr]
      simp
    · rw [harr]
      simp
    · have hw : (writeArr (PeersSnapshot h bucketArr).1 bucketArr
          b.peers).arrays h.next =
          (PeersSnapshot h bucketArr).1.arrays h.next := by
        simp [writeArr, hne]
      rw [hw, harr]
      simp

/-- C9 witness: on the one-array heap, taking a snapshot and then
adding or removing through the bucket leaves the snapshot's array
holding the copied contents. -/
theorem C9_snapshot_isolation_witness :
    (0 < heap1.next) ∧
    ((PeersSnapshot heap1 0).1.arrays (PeersSnapshot heap1 0).2 =
      heap1.arrays 0) ∧
    ((AddPeerHeap (PeersSnapshot heap1 0).1 0 (some (mkPeer 1 1))).arrays
      (PeersSnapshot heap1 0).2 = heap1.arrays 0) ∧
    ((RemovePeerHeap (PeersSnapshot heap1 0).1 0 (some (mkPeer 0 0))).arrays
      (PeersSnapshot heap1 0).2 = heap1.arrays 0) :=
  ⟨by decide,
    (C9_snapshot_isolation heap1 0 (some (mkPeer 1 1)) (some (mkPeer 0 0))
      (by decide)).1,
    (C9_snapshot_isolation heap1 0 (some (mkPeer 1 1)) (some (mkPeer 0 0))
      (by decide)).2.1,
    (C9_snapshot_isolation heap1 0 (some (mkPeer 1 1)) (some (mkPeer 0 0))
      (by decide)).2.2⟩

/-- C10.  The claim says every operation that reads or writes the peer
collection takes the bucket's exclusive lock and releases it on every
return path.  In the code, `GetPeerByAddr` on an address that is
neither UDP nor TCP returns with the mutex still held (lock taken,
never released), and `Peers`, `OldestPeer` and `CountPeers` read the
collection without touching the mutex at all; only the recognized
`GetPeerByAddr` paths obey the discipline. -/
theorem C10_lock_discipline_broken :
    lockDiscipline (GetPeerByAddrLockTrace .other) = false ∧
    (GetPeerByAddrLockTrace .other).count .lock = 1 ∧
    (GetPeerByAddrLockTrace .other).count .unlock = 0 ∧
    lockDiscipline PeersLockTrace = false ∧
    lockDiscipline OldestPeerLockTrace = false ∧
    lockDiscipline CountPeersLockTrace = false ∧
    lockDiscipline (GetPeerByAddrLockTrace .udp) = true ∧
    lockDiscipline (GetPeerByAddrLockTrace .tcp) = true := by
  decide
